import Mathlib

/-!
Verification of the gate-synthesis environment `GateSynthesis` in
`games/1qbg_1qbsys_simple.py`.

Modelling conventions:
* numpy complex scalars are modelled exactly as pairs of rationals (`CQ`);
  addition/subtraction are the componentwise `Prod` operations (which agree
  with complex addition/subtraction), multiplication is `cmul`;
* a numpy array of shape `(2,)*r` is a function `(Fin r → Fin 2) → CQ`;
* `np.tensordot` and `np.transpose` are embedded with their documented
  semantics (`transposeL` takes the `axes` list exactly as the source builds
  it: the m-th axis of the result is axis `axes[m]` of the input);
* Python list indexing (including negative indices) is `pyGet`;
* Python exceptions become an `Except` result.
-/

/-- A complex scalar: real and imaginary part, exact rationals. -/
abbrev CQ : Type := ℚ × ℚ

/- Batteries marks the rational field operations `@[irreducible]`, which stops
`decide` from evaluating concrete episodes; re-allow unfolding inside this
file (the kernel never respected the marking anyway). -/
attribute [local semireducible] Rat.mul Rat.add Rat.sub Rat.inv

/-- A `Decidable` instance for `≤` on ℚ that evaluates by integer
cross-multiplication (the library instance does not reduce); propositionally
it is interchangeable with any other instance. -/
instance (priority := 1100) ratDecLe (a b : ℚ) : Decidable (a ≤ b) :=
  decidable_of_iff (a.num * (b.den : ℤ) ≤ b.num * (a.den : ℤ)) Rat.le_def.symm

/-- Complex multiplication on `CQ` (the numpy complex product). -/
def cmul (x y : CQ) : CQ := (x.1 * y.1 - x.2 * y.2, x.1 * y.2 + x.2 * y.1)

/-- A numpy array of shape `(2,)*r`: one index of size 2 per axis. -/
def Tensor (r : ℕ) : Type := (Fin r → Fin 2) → CQ

instance {r : ℕ} : DecidableEq (Tensor r) :=
  inferInstanceAs (DecidableEq ((Fin r → Fin 2) → CQ))

/-- `np.tensordot(T, g, axes=(k, 1))` for a rank-2 gate `g`: contract `T`'s
axis `k` with `g`'s axis 1 (its column/input axis); the remaining axes of `T`
keep their relative order and `g`'s remaining axis 0 is appended as the last
axis of the (rank-preserving: r-1+1 = r) result. -/
def tensordot1 {r : ℕ} (T : Tensor r) (g : Fin 2 → Fin 2 → CQ) (k : Fin r) : Tensor r :=
  fun i => ∑ s : Fin 2,
    cmul (T (fun m => if m = k then s else
      i ⟨m.val - (if k.val < m.val then 1 else 0),
        Nat.lt_of_le_of_lt (Nat.sub_le _ _) m.isLt⟩))
      (g (i ⟨r - 1, by have := k.isLt; omega⟩) s)

/-- `np.tensordot(T, g, axes=((ka, kb), (1, 3)))` for a rank-4 gate `g`:
contract `T`'s axis `ka` with `g`'s axis 1 and `T`'s axis `kb` with `g`'s
axis 3; the remaining axes of `T` keep their relative order, then `g`'s
remaining axes 0 and 2 are appended, in that order, as the last two axes. -/
def tensordot2 {r : ℕ} (T : Tensor r) (g : Fin 2 → Fin 2 → Fin 2 → Fin 2 → CQ)
    (ka kb : Fin r) : Tensor r :=
  fun i => ∑ s : Fin 2, ∑ t : Fin 2,
    cmul (T (fun m => if m = ka then s else if m = kb then t else
      i ⟨m.val - (if ka.val < m.val then 1 else 0) - (if kb.val < m.val then 1 else 0),
        Nat.lt_of_le_of_lt (Nat.le_trans (Nat.sub_le _ _) (Nat.sub_le _ _)) m.isLt⟩))
      (g (i ⟨r - 2, by have := ka.isLt; omega⟩) s
         (i ⟨r - 1, by have := ka.isLt; omega⟩) t)

/-- `np.transpose(T, axes=p)`: axis `m` of the result corresponds to axis
`p[m]` of the input, so the input's axis `m` is read from position
`p.indexOf m` of the result index.  (`p` is always a permutation of
`0..r-1` where this is used; the `% r` merely keeps the index total.) -/
def transposeL {r : ℕ} (p : List ℕ) (T : Tensor r) : Tensor r :=
  fun i => T (fun m => i ⟨(List.indexOf m.val p) % r, Nat.mod_lt _ m.pos⟩)

/-- `GateSynthesis.qbit_num_to_tensor_index`: qubit `n` owns tensor axis `n*2`. -/
def qbit_num_to_tensor_index (n : ℕ) : ℕ := n * 2

/-- `GateSynthesis.apply_1q_gate`: contract the current operator's axis
`2*qbit` against the gate's second axis, then transpose by
`list(range(dim))` with `dim-1` inserted at position `2*qbit`, dropping the
final entry (`lst[:-1]`), exactly as the source does.  (`% r` keeps the
contraction index total; in the game `2*qbit < r` always holds.) -/
def apply_1q_gate {r : ℕ} (hr : 0 < r) (T : Tensor r) (g : Fin 2 → Fin 2 → CQ)
    (qbit : ℕ) : Tensor r :=
  let qb_idx := qbit_num_to_tensor_index qbit
  let lst := List.range r
  let tensored_res := tensordot1 T g ⟨qb_idx % r, Nat.mod_lt _ hr⟩
  transposeL ((lst.insertIdx qb_idx (r - 1)).dropLast) tensored_res

/-- `GateSynthesis.apply_2q_gate`: contract axes `2*qbitA`, `2*qbitB` of the
operator against axes 1 and 3 of the rank-4 gate, then transpose by
`list(range(dim))` with `first` inserted at `smaller` and `second` inserted
at `bigger` (`first, second = dim-2, dim-1` when `idx_a < idx_b`, swapped
otherwise), dropping the last two entries (`lst[:-2]`), exactly as the
source does. -/
def apply_2q_gate {r : ℕ} (hr : 0 < r) (T : Tensor r)
    (g : Fin 2 → Fin 2 → Fin 2 → Fin 2 → CQ) (qbitA qbitB : ℕ) : Tensor r :=
  let idx_a := qbit_num_to_tensor_index qbitA
  let idx_b := qbit_num_to_tensor_index qbitB
  let lst := List.range r
  let tensored_res := tensordot2 T g ⟨idx_a % r, Nat.mod_lt _ hr⟩ ⟨idx_b % r, Nat.mod_lt _ hr⟩
  let smaller := if idx_a < idx_b then idx_a else idx_b
  let bigger := if idx_a < idx_b then idx_b else idx_a
  let first := if idx_a < idx_b then r - 2 else r - 1
  let second := if idx_a < idx_b then r - 1 else r - 2
  transposeL (((lst.insertIdx smaller first).insertIdx bigger second).dropLast.dropLast)
    tensored_res

/-- The axes tuple `tuple(el for tup in zip(range(n), range(n, 2*n)) for el in tup)`
used by `get_observation`, i.e. `(0, n, 1, n+1, …, n-1, 2n-1)`. -/
def obs_axes (n : ℕ) : List ℕ :=
  (((List.range n).zip (List.range' n n)).map (fun ab => [ab.1, ab.2])).flatten

/-- Row-major `reshape((2**n, 2**n))` of a rank `2*n` tensor: the row index is
formed by the first `n` axes (axis 0 most significant) and the column index by
the last `n` axes; indices are kept as bit-vectors `Fin n → Fin 2`. -/
def reshape_square {n : ℕ} (U : Tensor (2 * n)) :
    (Fin n → Fin 2) → (Fin n → Fin 2) → CQ :=
  fun rb cb => U (fun m => if h : m.val < n then rb ⟨m.val, h⟩
    else cb ⟨m.val - n, by have := m.isLt; omega⟩)

/-- The observation: layer 0/1 ↦ 2^n × 2^n rational matrix. -/
def Obs (n : ℕ) : Type := Fin 2 → (Fin n → Fin 2) → (Fin n → Fin 2) → ℚ

/-- `GateSynthesis.get_observation`: transpose the current operator by
`obs_axes`, reshape to a square matrix, and stack `np.real` (layer 0) and
`np.imag` (layer 1). -/
def get_observation {n : ℕ} (T : Tensor (2 * n)) : Obs n :=
  fun layer rb cb =>
    let unitary := reshape_square (transposeL (obs_axes n) T) rb cb
    if layer = 0 then unitary.1 else unitary.2

/-- Squared modulus `|z|²` of a complex scalar, exact in ℚ. -/
def sqAbs (z : CQ) : ℚ := z.1 ^ 2 + z.2 ^ 2

/-- The elementwise test of `np.allclose`: `|a - b| ≤ atol + rtol * |b|`.
Because the two sides are square roots of rationals, the comparison is decided
exactly on squared moduli; `elemClose_iff_real` below proves that for
`0 ≤ atol`, `0 ≤ rtol` this is *equivalent* to the real-number inequality
`|a - b| ≤ atol + rtol * |b|` that numpy computes. -/
def elemClose (atol rtol : ℚ) (a b : CQ) : Prop :=
  sqAbs (a - b) - (atol ^ 2 + rtol ^ 2 * sqAbs b) ≤ 0 ∨
  (sqAbs (a - b) - (atol ^ 2 + rtol ^ 2 * sqAbs b)) ^ 2 ≤ 4 * atol ^ 2 * rtol ^ 2 * sqAbs b

instance (atol rtol : ℚ) (a b : CQ) : Decidable (elemClose atol rtol a b) :=
  inferInstanceAs (Decidable (_ ≤ (0 : ℚ) ∨ _ ≤ (_ : ℚ)))

/-- numpy's default absolute tolerance `atol = 1e-8`. -/
def npDefaultAtol : ℚ := 1 / 100000000

/-- `np.allclose(a, b, rtol=rtol)` with numpy's default `atol = 1e-8`:
every element of `a` is close to the corresponding element of `b`. -/
def npAllclose {r : ℕ} (a b : Tensor r) (rtol : ℚ) : Prop :=
  ∀ i, elemClose npDefaultAtol rtol (a i) (b i)

instance {r : ℕ} (a b : Tensor r) (rtol : ℚ) : Decidable (npAllclose a b rtol) :=
  inferInstanceAs (Decidable (∀ i, elemClose npDefaultAtol rtol (a i) (b i)))

/-- A gate as stored in the action list: a numpy tensor of shape `(2,)*rank`
(rank 2 for single-qubit gates, rank 4 for two-qubit gates; other ranks are
representable so that the unsupported-shape branch of `step` is reachable). -/
def GateT : Type := (r : ℕ) × Tensor r

/-- The qubit target of an action: a single qubit number, or an ordered pair. -/
inductive QTarget : Type where
  | one : ℕ → QTarget
  | two : ℕ × ℕ → QTarget
deriving DecidableEq

instance : DecidableEq GateT :=
  inferInstanceAs (DecidableEq ((r : ℕ) × Tensor r))

/-- `itertools.product(xs, ys)`: all pairs, first-component-major. -/
def pyProduct {α β : Type} (xs : List α) (ys : List β) : List (α × β) :=
  xs.flatMap (fun a => ys.map (fun b => (a, b)))

/-- `GateSynthesis.make_full_action_list`: single-qubit actions
`product(q1_gates, range(nb_qbits))`, then (when `nb_qbits > 1`) two-qubit
actions `product(q2_gates, [(a,b) : a ≠ b])`, zipped with their positions. -/
def make_full_action_list (q1_gates q2_gates : List GateT) (nb_qbits : ℕ) :
    List (ℕ × (GateT × QTarget)) :=
  let q1_actions := (pyProduct q1_gates (List.range nb_qbits)).map
    (fun ga => (ga.1, QTarget.one ga.2))
  let all_actions :=
    if 1 < nb_qbits then
      let all_2q_permutations := pyProduct (List.range nb_qbits) (List.range nb_qbits)
      let coherent_2q_permutations := all_2q_permutations.filter (fun x => x.1 != x.2)
      let q2_actions := (pyProduct q2_gates coherent_2q_permutations).map
        (fun ga => (ga.1, QTarget.two ga.2))
      q1_actions ++ q2_actions
    else q1_actions
  (List.range all_actions.length).zip all_actions

/-- The state of a `GateSynthesis` instance.  `hpos` records that the game
has at least one qubit (`N ≥ 1`, as every claim assumes). -/
structure GameState (n : ℕ) where
  hpos : 0 < n
  init_unitary_op : Tensor (2 * n)
  curr_unitary_op : Tensor (2 * n)
  target_unitary_op : Tensor (2 * n)
  final_reward : ℚ
  q1_gates : List GateT
  q2_gates : List GateT
  full_action_list : List (ℕ × (GateT × QTarget))
  nb_steps : ℕ
  max_steps : ℕ
  tol : ℚ
  distance_history : List ℚ
  player : ℤ

/-- `GateSynthesis.__init__` (with `nb_qbits = n` computed from the operator
rank `2*n`, as the source derives it from `init_uop.shape`). -/
def GateSynthesis.init {n : ℕ} (hpos : 0 < n) (q1_gates q2_gates : List GateT)
    (rwd : ℚ) (max_steps : ℕ) (init_uop target_uop : Tensor (2 * n)) (tol : ℚ) :
    GameState n :=
  { hpos := hpos
    init_unitary_op := init_uop
    curr_unitary_op := init_uop
    target_unitary_op := target_uop
    final_reward := rwd
    q1_gates := q1_gates
    q2_gates := q2_gates
    full_action_list := make_full_action_list q1_gates q2_gates n
    nb_steps := 0
    max_steps := max_steps
    tol := tol
    distance_history := []
    player := 1 }

/-- `GateSynthesis.have_winner`:
`np.allclose(curr_unitary_op, target_unitary_op, rtol=tol)`. -/
def GateSynthesis.have_winner {n : ℕ} (S : GameState n) : Prop :=
  npAllclose S.curr_unitary_op S.target_unitary_op S.tol

instance {n : ℕ} (S : GameState n) : Decidable (GateSynthesis.have_winner S) :=
  inferInstanceAs (Decidable (npAllclose S.curr_unitary_op S.target_unitary_op S.tol))

/-- `GateSynthesis.reset`: the updated instance and the returned observation. -/
def GateSynthesis.reset {n : ℕ} (S : GameState n) : GameState n × Obs n :=
  let S1 := { S with curr_unitary_op := S.init_unitary_op
                     nb_steps := 0
                     distance_history := ([] : List ℚ) }
  (S1, get_observation S1.curr_unitary_op)

/-- The failures `GateSynthesis.step` can raise. -/
inductive StepErr : Type where
  /-- Python `IndexError` from `self.full_action_list[action_idx]`
  (the spec's `InvalidActionIndex`). -/
  | indexError : StepErr
  /-- Python `ValueError('Unsupported gate dimension')`
  (the spec's `UnsupportedGateShape`). -/
  | unsupportedGateShape : StepErr
  /-- A Python error raised when a rank-4 gate is paired with a single-qubit
  target or a rank-2 gate with a qubit pair (a `TypeError` on unpacking, or a
  numpy axes error inside `apply_1q_gate`); such actions never arise from
  `make_full_action_list` over rank-2/rank-4 gate sets. -/
  | typeErr : StepErr
deriving DecidableEq

/-- Python list indexing `l[i]`: negative indices count from the end of the
list; anything outside `[-len(l), len(l))` raises `IndexError` (`none`). -/
def pyGet {α : Type} (l : List α) (i : ℤ) : Option α :=
  if 0 ≤ i then l.get? i.toNat
  else if (-i).toNat ≤ l.length then l.get? (l.length - (-i).toNat)
  else none

/-- Read a rank-2 gate stored in a `GateT` as a curried matrix
(axis 0 = row/output, axis 1 = column/input); only used under `G.1 = 2`. -/
def asGate2 (G : GateT) : Fin 2 → Fin 2 → CQ :=
  fun a b => G.2 (fun m => if m.val = 0 then a else b)

/-- Read a rank-4 gate stored in a `GateT` as a curried 4-index tensor;
only used under `G.1 = 4`. -/
def asGate4 (G : GateT) : Fin 2 → Fin 2 → Fin 2 → Fin 2 → CQ :=
  fun a b c d => G.2 (fun m =>
    if m.val = 0 then a else if m.val = 1 then b else if m.val = 2 then c else d)

/-- `GateSynthesis.step`: resolve `full_action_list[action_idx]`, dispatch on
the gate's shape (`(2,2,2,2)` → two-qubit applier, `(2,2)` → single-qubit
applier, otherwise `ValueError`), then return the updated instance together
with `(observation, reward, done)`.

Faithful to the source: `nb_steps` is NEVER incremented; `done` is
`have_winner() or (nb_steps > max_steps)` and `reward` is `final_reward` when
`have_winner()` holds, else 0. -/
def GateSynthesis.step {n : ℕ} (S : GameState n) (action_idx : ℤ) :
    Except StepErr (GameState n × (Obs n × ℚ × Bool)) :=
  match pyGet S.full_action_list action_idx with
  | none => .error .indexError
  | some a =>
    let gate := a.2.1
    let qbit := a.2.2
    let hr : 0 < 2 * n := by have := S.hpos; omega
    let applied : Except StepErr (Tensor (2 * n)) :=
      if gate.1 = 4 then
        match qbit with
        | .two p => .ok (apply_2q_gate hr S.curr_unitary_op (asGate4 gate) p.1 p.2)
        | .one _ => .error .typeErr
      else if gate.1 = 2 then
        match qbit with
        | .one qb => .ok (apply_1q_gate hr S.curr_unitary_op (asGate2 gate) qb)
        | .two _ => .error .typeErr
      else .error .unsupportedGateShape
    match applied with
    | .error e => .error e
    | .ok newT =>
      let S1 := { S with curr_unitary_op := newT }
      let done := decide (GateSynthesis.have_winner S1) || decide (S1.nb_steps > S1.max_steps)
      let reward := if GateSynthesis.have_winner S1 then S1.final_reward else (0 : ℚ)
      .ok (S1, (get_observation S1.curr_unitary_op, reward, done))

/-- An externally driven operation on a `GateSynthesis` instance. -/
inductive GameOp : Type where
  | reset : GameOp
  | step : ℤ → GameOp

/-- Run a sequence of `reset`/`step` calls, stopping at the first failure. -/
def runOps {n : ℕ} (S : GameState n) : List GameOp → Except StepErr (GameState n)
  | [] => .ok S
  | GameOp.reset :: rest => runOps (GateSynthesis.reset S).1 rest
  | GameOp.step i :: rest =>
    match GateSynthesis.step S i with
    | .error e => .error e
    | .ok res => runOps res.1 rest

lemma insertIdx_range' (x : ℕ) : ∀ (k s m : ℕ), k ≤ m →
    (List.range' s m).insertIdx k x = List.range' s k ++ x :: List.range' (s + k) (m - k) := by
  intro k
  induction k with
  | zero => intro s m _; simp
  | succ k ih =>
    intro s m hm
    cases m with
    | zero => omega
    | succ m' =>
      rw [List.range'_succ, List.insertIdx_succ_cons, ih (s + 1) m' (by omega)]
      rw [List.range'_succ]
      have e1 : s + 1 + k = s + (k + 1) := by omega
      have e2 : m' - k = m' + 1 - (k + 1) := by omega
      rw [e1, e2]
      simp

lemma indexOf_range' : ∀ (m s j : ℕ), j < m → List.indexOf (s + j) (List.range' s m) = j := by
  intro m
  induction m with
  | zero => intro s j h; omega
  | succ m ih =>
    intro s j hj
    rw [List.range'_succ]
    cases j with
    | zero => simp
    | succ j' =>
      rw [List.indexOf_cons_ne _ (by omega : s ≠ s + (j' + 1))]
      have : s + (j' + 1) = (s + 1) + j' := by omega
      rw [this, ih (s + 1) j' (by omega)]

lemma notMem_range'_1 {v s m : ℕ} (h : v < s ∨ s + m ≤ v) : v ∉ List.range' s m := by
  intro hv
  rw [List.mem_range'_1] at hv
  omega

lemma perm1_eq (r k : ℕ) (hk : k < r) :
    ((List.range r).insertIdx k (r - 1)).dropLast
      = List.range' 0 k ++ (r - 1) :: List.range' k (r - 1 - k) := by
  rw [List.range_eq_range', insertIdx_range' (r - 1) k 0 r (by omega)]
  have h1 : r - k = (r - 1 - k) + 1 := by omega
  rw [h1, List.range'_1_concat]
  have h2 : 0 + k + (r - 1 - k) = r - 1 := by omega
  rw [h2]
  have h3 : List.range' 0 k ++ (r - 1) :: (List.range' (0 + k) (r - 1 - k) ++ [r - 1])
      = (List.range' 0 k ++ (r - 1) :: List.range' k (r - 1 - k)) ++ [r - 1] := by
    simp
  rw [h3, List.dropLast_concat]

lemma indexOf_perm1_lt {r k v : ℕ} (hk : k < r) (hv : v < k) :
    List.indexOf v (List.range' 0 k ++ (r - 1) :: List.range' k (r - 1 - k)) = v := by
  rw [List.indexOf_append_of_mem (by rw [List.mem_range'_1]; omega)]
  have h0 := indexOf_range' k 0 v hv
  rwa [Nat.zero_add] at h0

lemma indexOf_perm1_last {r k : ℕ} (hk : k < r) :
    List.indexOf (r - 1) (List.range' 0 k ++ (r - 1) :: List.range' k (r - 1 - k)) = k := by
  rw [List.indexOf_append_of_not_mem (notMem_range'_1 (by omega)), List.indexOf_cons_self]
  simp [List.length_range']

lemma indexOf_perm1_ge {r k v : ℕ} (hk : k < r) (h1 : k ≤ v) (h2 : v < r - 1) :
    List.indexOf v (List.range' 0 k ++ (r - 1) :: List.range' k (r - 1 - k)) = v + 1 := by
  rw [List.indexOf_append_of_not_mem (notMem_range'_1 (by omega))]
  rw [List.indexOf_cons_ne _ (by omega : r - 1 ≠ v)]
  have hv : v = k + (v - k) := by omega
  rw [hv, indexOf_range' (r - 1 - k) k (v - k) (by omega)]
  simp [List.length_range']
  omega

/-- What `apply_1q_gate` computes, pointwise. -/
theorem apply_1q_gate_eq {r : ℕ} (hr : 0 < r) (T : Tensor r) (g : Fin 2 → Fin 2 → CQ)
    (qbit : ℕ) (hq : 2 * qbit < r) :
    apply_1q_gate hr T g qbit = fun i => ∑ s : Fin 2,
      cmul (T (fun m => if m.val = 2 * qbit then s else i m)) (g (i ⟨2 * qbit, hq⟩) s) := by
  funext i
  have hqk : qbit_num_to_tensor_index qbit = 2 * qbit := by
    unfold qbit_num_to_tensor_index; omega
  simp only [apply_1q_gate, transposeL, tensordot1, hqk]
  rw [perm1_eq r (2 * qbit) hq]
  have hmod : 2 * qbit % r = 2 * qbit := Nat.mod_eq_of_lt hq
  simp only [hmod]
  refine Finset.sum_congr rfl (fun s _ => ?_)
  congr 1
  · congr 1
    funext m
    by_cases hm : m = (⟨2 * qbit, hq⟩ : Fin r)
    · rw [if_pos hm, if_pos (by rw [hm])]
    · rw [if_neg hm, if_neg (fun hc => hm (Fin.ext hc))]
      congr 1
      apply Fin.ext
      simp only []
      by_cases hlt : (2 * qbit : ℕ) < m.val
      · rw [if_pos hlt]
        rw [indexOf_perm1_ge hq (by omega) (by have := m.isLt; omega)]
        have := m.isLt
        rw [Nat.mod_eq_of_lt (by omega)]
        omega
      · rw [if_neg hlt]
        have hne : m.val ≠ 2 * qbit := fun hc => hm (Fin.ext hc)
        rw [indexOf_perm1_lt hq (by omega)]
        rw [Nat.mod_eq_of_lt (by have := m.isLt; omega)]
        omega
  · congr 1
    apply congrArg
    apply Fin.ext
    simp only []
    rw [indexOf_perm1_last hq, Nat.mod_eq_of_lt hq]

lemma insertIdx_append_right {A C : List ℕ} (j : ℕ) (y : ℕ) :
    (A ++ C).insertIdx (A.length + j) y = A ++ C.insertIdx j y := by
  induction A with
  | nil => simp
  | cons a A ih =>
    simp only [List.cons_append, List.length_cons]
    have : A.length + 1 + j = (A.length + j) + 1 := by omega
    rw [this, List.insertIdx_succ_cons, ih]

lemma perm2_eq (r small big fst snd : ℕ) (hsb : small < big) (hbr : big < r) :
    (((List.range r).insertIdx small fst).insertIdx big snd).dropLast.dropLast
      = List.range' 0 small ++ fst ::
          (List.range' small (big - small - 1) ++ snd :: List.range' (big - 1) (r - big - 1)) := by
  rw [List.range_eq_range', insertIdx_range' fst small 0 r (by omega), Nat.zero_add]
  have hA : List.range' 0 small ++ fst :: List.range' small (r - small)
      = (List.range' 0 small ++ [fst]) ++ List.range' small (r - small) := by simp
  rw [hA]
  have hlen : big = (List.range' 0 small ++ [fst]).length + (big - small - 1) := by
    simp [List.length_range']
    omega
  rw [hlen, insertIdx_append_right, insertIdx_range' snd (big - small - 1) small (r - small) (by omega)]
  have h1 : small + (big - small - 1) = big - 1 := by omega
  have h2 : r - small - (big - small - 1) = r - big + 1 := by omega
  rw [h1, h2]
  have h3 : r - big + 1 = (r - big - 1) + 1 + 1 := by omega
  rw [h3, List.range'_1_concat, List.range'_1_concat]
  have h4 : big - 1 + (r - big - 1 + 1) = r - 1 := by omega
  have h5 : big - 1 + (r - big - 1) = r - 2 := by omega
  rw [h4, h5]
  have h6 : (List.range' 0 small ++ [fst]) ++
        (List.range' small (big - small - 1) ++ snd ::
          ((List.range' (big - 1) (r - big - 1) ++ [r - 2]) ++ [r - 1]))
      = ((List.range' 0 small ++ [fst]) ++
          (List.range' small (big - small - 1) ++ snd ::
            (List.range' (big - 1) (r - big - 1) ++ [r - 2]))) ++ [r - 1] := by
    simp
  rw [h6, List.dropLast_concat]
  have h7 : (List.range' 0 small ++ [fst]) ++
        (List.range' small (big - small - 1) ++ snd ::
          (List.range' (big - 1) (r - big - 1) ++ [r - 2]))
      = ((List.range' 0 small ++ [fst]) ++
          (List.range' small (big - small - 1) ++ snd ::
            List.range' (big - 1) (r - big - 1))) ++ [r - 2] := by
    simp
  rw [h7, List.dropLast_concat]
  simp only [List.length_append, List.length_range', List.length_cons, List.length_nil]
  have e1 : small + 1 + (big - small - 1) - small - 1 = big - small - 1 := by omega
  have e2 : r - (small + 1 + (big - small - 1)) - 1 = r - big - 1 := by omega
  have e3 : small + (0 + 1) + (big - small - 1) - 1 = big - 1 := by omega
  rw [e1, e2, e3]
  simp

section Perm2IndexOf

variable {r small big fst snd : ℕ}

lemma indexOf_perm2_seg1 (hsb : small < big) (hbr : big < r)
    (hf : r - 2 ≤ fst) {v : ℕ} (hv : v < small) :
    List.indexOf v (List.range' 0 small ++ fst ::
        (List.range' small (big - small - 1) ++ snd :: List.range' (big - 1) (r - big - 1))) = v := by
  rw [List.indexOf_append_of_mem (by rw [List.mem_range'_1]; omega)]
  have h0 := indexOf_range' small 0 v hv
  rwa [Nat.zero_add] at h0

lemma indexOf_perm2_seg2 (hsb : small < big) (hbr : big < r)
    (hf : r - 2 ≤ fst) {v : ℕ} (h1 : small ≤ v) (h2 : v < big - 1) :
    List.indexOf v (List.range' 0 small ++ fst ::
        (List.range' small (big - small - 1) ++ snd :: List.range' (big - 1) (r - big - 1))) = v + 1 := by
  rw [List.indexOf_append_of_not_mem (notMem_range'_1 (by omega))]
  rw [List.indexOf_cons_ne _ (by omega : fst ≠ v)]
  rw [List.indexOf_append_of_mem (by rw [List.mem_range'_1]; omega)]
  have hv : v = small + (v - small) := by omega
  rw [hv, indexOf_range' (big - small - 1) small (v - small) (by omega)]
  simp [List.length_range']
  omega

lemma indexOf_perm2_seg3 (hsb : small < big) (hbr : big < r)
    (hf : r - 2 ≤ fst) (hs : r - 2 ≤ snd) {v : ℕ} (h1 : big - 1 ≤ v) (h2 : v < r - 2) :
    List.indexOf v (List.range' 0 small ++ fst ::
        (List.range' small (big - small - 1) ++ snd :: List.range' (big - 1) (r - big - 1))) = v + 2 := by
  rw [List.indexOf_append_of_not_mem (notMem_range'_1 (by omega))]
  rw [List.indexOf_cons_ne _ (by omega : fst ≠ v)]
  rw [List.indexOf_append_of_not_mem (notMem_range'_1 (by omega))]
  rw [List.indexOf_cons_ne _ (by omega : snd ≠ v)]
  have hv : v = (big - 1) + (v - (big - 1)) := by omega
  rw [hv, indexOf_range' (r - big - 1) (big - 1) (v - (big - 1)) (by omega)]
  simp [List.length_range']
  omega

lemma indexOf_perm2_fst (hsb : small < big) (hbr : big < r) (hf : r - 2 ≤ fst) :
    List.indexOf fst (List.range' 0 small ++ fst ::
        (List.range' small (big - small - 1) ++ snd :: List.range' (big - 1) (r - big - 1))) = small := by
  rw [List.indexOf_append_of_not_mem (notMem_range'_1 (by omega)), List.indexOf_cons_self]
  simp [List.length_range']

lemma indexOf_perm2_snd (hsb : small < big) (hbr : big < r)
    (hf : r - 2 ≤ fst) (hs : r - 2 ≤ snd) (hfs : fst ≠ snd) :
    List.indexOf snd (List.range' 0 small ++ fst ::
        (List.range' small (big - small - 1) ++ snd :: List.range' (big - 1) (r - big - 1))) = big := by
  rw [List.indexOf_append_of_not_mem (notMem_range'_1 (by omega))]
  rw [List.indexOf_cons_ne _ hfs]
  rw [List.indexOf_append_of_not_mem (notMem_range'_1 (by omega))]
  rw [List.indexOf_cons_self]
  simp [List.length_range']
  omega

end Perm2IndexOf

/-- What `apply_2q_gate` computes, pointwise. -/
theorem apply_2q_gate_eq {r : ℕ} (hr : 0 < r) (T : Tensor r)
    (g : Fin 2 → Fin 2 → Fin 2 → Fin 2 → CQ) (qbitA qbitB : ℕ)
    (ha : 2 * qbitA < r) (hb : 2 * qbitB < r) (hne : qbitA ≠ qbitB) :
    apply_2q_gate hr T g qbitA qbitB = fun i => ∑ s : Fin 2, ∑ t : Fin 2,
      cmul (T (fun m => if m.val = 2 * qbitA then s else if m.val = 2 * qbitB then t else i m))
        (g (i ⟨2 * qbitA, ha⟩) s (i ⟨2 * qbitB, hb⟩) t) := by
  funext i
  have hqa : qbit_num_to_tensor_index qbitA = 2 * qbitA := by
    unfold qbit_num_to_tensor_index; omega
  have hqb : qbit_num_to_tensor_index qbitB = 2 * qbitB := by
    unfold qbit_num_to_tensor_index; omega
  have hne2 : 2 * qbitA ≠ 2 * qbitB := by omega
  have hr2 : 2 ≤ r := by omega
  simp only [apply_2q_gate, transposeL, tensordot2, hqa, hqb]
  have hma : 2 * qbitA % r = 2 * qbitA := Nat.mod_eq_of_lt ha
  have hmb : 2 * qbitB % r = 2 * qbitB := Nat.mod_eq_of_lt hb
  simp only [hma, hmb]
  by_cases hab : 2 * qbitA < 2 * qbitB
  · simp only [if_pos hab]
    simp only [perm2_eq r (2 * qbitA) (2 * qbitB) (r - 2) (r - 1) hab hb]
    refine Finset.sum_congr rfl (fun s _ => ?_)
    refine Finset.sum_congr rfl (fun t _ => ?_)
    congr 1
    · congr 1
      funext m
      by_cases hmA : m = (⟨2 * qbitA, ha⟩ : Fin r)
      · rw [if_pos hmA, if_pos (by rw [hmA])]
      · rw [if_neg hmA, if_neg (fun hc => hmA (Fin.ext hc))]
        by_cases hmB : m = (⟨2 * qbitB, hb⟩ : Fin r)
        · rw [if_pos hmB, if_pos (by rw [hmB])]
        · rw [if_neg hmB, if_neg (fun hc => hmB (Fin.ext hc))]
          congr 1
          apply Fin.ext
          simp only []
          have hvA : m.val ≠ 2 * qbitA := fun hc => hmA (Fin.ext hc)
          have hvB : m.val ≠ 2 * qbitB := fun hc => hmB (Fin.ext hc)
          have hmlt := m.isLt
          rcases Nat.lt_trichotomy m.val (2 * qbitA) with h1 | h1 | h1
          · rw [if_neg (by omega), if_neg (by omega)]
            rw [indexOf_perm2_seg1 hab hb (by omega) (by omega : m.val - 0 - 0 < 2 * qbitA)]
            rw [Nat.mod_eq_of_lt (by omega)]
            omega
          · omega
          · by_cases h2 : m.val < 2 * qbitB
            · rw [if_pos h1, if_neg (by omega)]
              rw [indexOf_perm2_seg2 hab hb (by omega) (by omega) (by omega)]
              rw [Nat.mod_eq_of_lt (by omega)]
              omega
            · rw [if_pos h1, if_pos (by omega)]
              rw [indexOf_perm2_seg3 hab hb (by omega) (by omega) (by omega) (by omega)]
              rw [Nat.mod_eq_of_lt (by omega)]
              omega
    · have e1 : (⟨List.indexOf (r - 2) (List.range' 0 (2 * qbitA) ++ (r - 2) ::
          (List.range' (2 * qbitA) (2 * qbitB - 2 * qbitA - 1) ++ (r - 1) ::
            List.range' (2 * qbitB - 1) (r - 2 * qbitB - 1))) % r, by
              have := Nat.mod_lt (List.indexOf (r - 2) (List.range' 0 (2 * qbitA) ++ (r - 2) ::
                (List.range' (2 * qbitA) (2 * qbitB - 2 * qbitA - 1) ++ (r - 1) ::
                  List.range' (2 * qbitB - 1) (r - 2 * qbitB - 1)))) hr
              exact this⟩ : Fin r) = ⟨2 * qbitA, ha⟩ := by
        apply Fin.ext
        simp only []
        rw [indexOf_perm2_fst hab hb (by omega), Nat.mod_eq_of_lt ha]
      have e2 : (⟨List.indexOf (r - 1) (List.range' 0 (2 * qbitA) ++ (r - 2) ::
          (List.range' (2 * qbitA) (2 * qbitB - 2 * qbitA - 1) ++ (r - 1) ::
            List.range' (2 * qbitB - 1) (r - 2 * qbitB - 1))) % r, by
              have := Nat.mod_lt (List.indexOf (r - 1) (List.range' 0 (2 * qbitA) ++ (r - 2) ::
                (List.range' (2 * qbitA) (2 * qbitB - 2 * qbitA - 1) ++ (r - 1) ::
                  List.range' (2 * qbitB - 1) (r - 2 * qbitB - 1)))) hr
              exact this⟩ : Fin r) = ⟨2 * qbitB, hb⟩ := by
        apply Fin.ext
        simp only []
        rw [indexOf_perm2_snd hab hb (by omega) (by omega) (by omega), Nat.mod_eq_of_lt hb]
      rw [e1, e2]
  · have hba : 2 * qbitB < 2 * qbitA := by omega
    simp only [if_neg hab]
    simp only [perm2_eq r (2 * qbitB) (2 * qbitA) (r - 1) (r - 2) hba ha]
    refine Finset.sum_congr rfl (fun s _ => ?_)
    refine Finset.sum_congr rfl (fun t _ => ?_)
    congr 1
    · congr 1
      funext m
      by_cases hmA : m = (⟨2 * qbitA, ha⟩ : Fin r)
      · rw [if_pos hmA, if_pos (by rw [hmA])]
      · rw [if_neg hmA, if_neg (fun hc => hmA (Fin.ext hc))]
        by_cases hmB : m = (⟨2 * qbitB, hb⟩ : Fin r)
        · rw [if_pos hmB, if_pos (by rw [hmB])]
        · rw [if_neg hmB, if_neg (fun hc => hmB (Fin.ext hc))]
          congr 1
          apply Fin.ext
          simp only []
          have hvA : m.val ≠ 2 * qbitA := fun hc => hmA (Fin.ext hc)
          have hvB : m.val ≠ 2 * qbitB := fun hc => hmB (Fin.ext hc)
          have hmlt := m.isLt
          rcases Nat.lt_trichotomy m.val (2 * qbitB) with h1 | h1 | h1
          · rw [if_neg (by omega), if_neg (by omega)]
            rw [indexOf_perm2_seg1 hba ha (by omega) (by omega : m.val - 0 - 0 < 2 * qbitB)]
            rw [Nat.mod_eq_of_lt (by omega)]
            omega
          · omega
          · by_cases h2 : m.val < 2 * qbitA
            · rw [if_neg (by omega), if_pos h1]
              rw [indexOf_perm2_seg2 hba ha (by omega) (by omega) (by omega)]
              rw [Nat.mod_eq_of_lt (by omega)]
              omega
            · rw [if_pos (by omega), if_pos h1]
              rw [indexOf_perm2_seg3 hba ha (by omega) (by omega) (by omega) (by omega)]
              rw [Nat.mod_eq_of_lt (by omega)]
              omega
    · have e1 : (⟨List.indexOf (r - 2) (List.range' 0 (2 * qbitB) ++ (r - 1) ::
          (List.range' (2 * qbitB) (2 * qbitA - 2 * qbitB - 1) ++ (r - 2) ::
            List.range' (2 * qbitA - 1) (r - 2 * qbitA - 1))) % r, by
              exact Nat.mod_lt _ hr⟩ : Fin r) = ⟨2 * qbitA, ha⟩ := by
        apply Fin.ext
        simp only []
        rw [indexOf_perm2_snd hba ha (by omega) (by omega) (by omega), Nat.mod_eq_of_lt ha]
      have e2 : (⟨List.indexOf (r - 1) (List.range' 0 (2 * qbitB) ++ (r - 1) ::
          (List.range' (2 * qbitB) (2 * qbitA - 2 * qbitB - 1) ++ (r - 2) ::
            List.range' (2 * qbitA - 1) (r - 2 * qbitA - 1))) % r, by
              exact Nat.mod_lt _ hr⟩ : Fin r) = ⟨2 * qbitB, hb⟩ := by
        apply Fin.ext
        simp only []
        rw [indexOf_perm2_fst hba ha (by omega), Nat.mod_eq_of_lt hb]
      rw [e1, e2]

lemma obs_axes_flatMap (n : ℕ) :
    obs_axes n = (List.range' 0 n).flatMap (fun j => [j, n + j]) := by
  unfold obs_axes
  have aux : ∀ (c a : ℕ),
      (((List.range' a c).zip (List.range' (n + a) c)).map (fun ab => [ab.1, ab.2])).flatten
        = (List.range' a c).flatMap (fun j => [j, n + j]) := by
    intro c
    induction c with
    | zero => intro a; simp
    | succ c ih =>
      intro a
      rw [List.range'_succ, List.range'_succ]
      have : n + a + 1 = n + (a + 1) := by omega
      rw [List.zip_cons_cons, List.map_cons, List.flatten_cons, this, ih (a + 1)]
      simp
  have h0 := aux n 0
  rw [List.range_eq_range']
  rw [show n + 0 = n by omega] at h0
  exact h0

lemma indexOf_interleave_aux (n : ℕ) : ∀ (c a v : ℕ), a + c ≤ n →
    ((a ≤ v → v < a + c →
      List.indexOf v ((List.range' a c).flatMap (fun j => [j, n + j])) = 2 * (v - a)) ∧
     (n + a ≤ v → v < n + a + c →
      List.indexOf v ((List.range' a c).flatMap (fun j => [j, n + j])) = 2 * (v - n - a) + 1)) := by
  intro c
  induction c with
  | zero => intro a v h; exact ⟨fun h1 h2 => by omega, fun h1 h2 => by omega⟩
  | succ c ih =>
    intro a v hc
    rw [List.range'_succ, List.flatMap_cons]
    constructor
    · intro h1 h2
      by_cases hva : v = a
      · subst hva
        simp
      · simp only [List.cons_append, List.nil_append]
        rw [List.indexOf_cons_ne _ (by omega : a ≠ v),
          List.indexOf_cons_ne _ (by omega : n + a ≠ v)]
        have := (ih (a + 1) v (by omega)).1 (by omega) (by omega)
        rw [this]
        omega
    · intro h1 h2
      by_cases hva : v = n + a
      · subst hva
        simp only [List.cons_append, List.nil_append]
        rw [List.indexOf_cons_ne _ (by omega : a ≠ n + a), List.indexOf_cons_self]
        omega
      · simp only [List.cons_append, List.nil_append]
        rw [List.indexOf_cons_ne _ (by omega : a ≠ v),
          List.indexOf_cons_ne _ (by omega : n + a ≠ v)]
        have := (ih (a + 1) v (by omega)).2 (by omega) (by omega)
        rw [this]
        omega

lemma indexOf_obs_axes_row {n v : ℕ} (hv : v < n) :
    List.indexOf v (obs_axes n) = 2 * v := by
  rw [obs_axes_flatMap]
  have := (indexOf_interleave_aux n n 0 v (by omega)).1 (by omega) (by omega)
  rw [this]
  omega

lemma indexOf_obs_axes_col {n v : ℕ} (h1 : n ≤ v) (h2 : v < 2 * n) :
    List.indexOf v (obs_axes n) = 2 * (v - n) + 1 := by
  rw [obs_axes_flatMap]
  have := (indexOf_interleave_aux n n 0 v (by omega)).2 (by omega) (by omega)
  rw [this]
  omega

/-- The operator-axis index that matrix entry `(rb, cb)` of the observation
reads: axis `m` of the operator takes row bit `2*m` when `2*m < n` resp.
column bit `2*m - n` (for `m < n`), and row bit `2*(m-n)+1` resp. column bit
`2*(m-n)+1-n` otherwise. -/
def obs_source_index {n : ℕ} (rb cb : Fin n → Fin 2) (m : Fin (2 * n)) : Fin 2 :=
  if hj : (if m.val < n then 2 * m.val else 2 * (m.val - n) + 1) < n
  then rb ⟨(if m.val < n then 2 * m.val else 2 * (m.val - n) + 1), hj⟩
  else cb ⟨(if m.val < n then 2 * m.val else 2 * (m.val - n) + 1) - n,
    by have := m.isLt; split <;> omega⟩

/-- What `get_observation` computes, pointwise: the axes permutation is the
interleaving `(0, n, 1, n+1, …)`, not a row-block/column-block grouping. -/
theorem get_observation_eq {n : ℕ} (T : Tensor (2 * n)) (layer : Fin 2)
    (rb cb : Fin n → Fin 2) :
    get_observation T layer rb cb =
      if layer = 0 then (T (obs_source_index rb cb)).1 else (T (obs_source_index rb cb)).2 := by
  simp only [get_observation, reshape_square, transposeL]
  refine congrArg (fun z : CQ => if layer = 0 then z.1 else z.2) (congrArg T (funext fun m => ?_))
  have hm2 := m.isLt
  unfold obs_source_index
  by_cases hmn : m.val < n
  · have hidx : List.indexOf m.val (obs_axes n) = 2 * m.val := indexOf_obs_axes_row hmn
    simp only [hidx, if_pos hmn]
    have hmod : 2 * m.val % (2 * n) = 2 * m.val := Nat.mod_eq_of_lt (by omega)
    simp only [hmod]
  · have hidx : List.indexOf m.val (obs_axes n) = 2 * (m.val - n) + 1 :=
      indexOf_obs_axes_col (by omega) hm2
    simp only [hidx, if_neg hmn]
    have hmod : (2 * (m.val - n) + 1) % (2 * n) = 2 * (m.val - n) + 1 :=
      Nat.mod_eq_of_lt (by omega)
    simp only [hmod]

/-- Modelled from the spec: the N-qubit identity operator (the external
constant `I`/`III` supplied by the gate module, which is not under `src/`):
1 where every qubit's row bit equals its column bit, 0 elsewhere. -/
def idOp (n : ℕ) : Tensor (2 * n) := fun i =>
  if (∀ k : Fin n, i ⟨2 * k.val, by have := k.isLt; omega⟩
      = i ⟨2 * k.val + 1, by have := k.isLt; omega⟩)
  then ((1 : ℚ), (0 : ℚ)) else ((0 : ℚ), (0 : ℚ))

/-- The complex modulus that numpy computes, on our exact scalars. -/
noncomputable def absC (z : CQ) : ℝ := Real.sqrt ((z.1 : ℝ) ^ 2 + (z.2 : ℝ) ^ 2)

lemma absC_eq_sqrt_sqAbs (z : CQ) : absC z = Real.sqrt ((sqAbs z : ℝ)) := by
  unfold absC sqAbs
  push_cast
  rfl

/-- `elemClose` decides exactly the inequality `|a-b| ≤ atol + rtol*|b|`
over the reals (for nonnegative tolerances), i.e. numpy's elementwise test. -/
lemma elemClose_iff_real {atol rtol : ℚ} (hA : 0 ≤ atol) (hR : 0 ≤ rtol) (a b : CQ) :
    elemClose atol rtol a b ↔ absC (a - b) ≤ (atol : ℝ) + (rtol : ℝ) * absC b := by
  have hAr : (0 : ℝ) ≤ (atol : ℝ) := by exact_mod_cast hA
  have hRr : (0 : ℝ) ≤ (rtol : ℝ) := by exact_mod_cast hR
  have hB : (0 : ℝ) ≤ (sqAbs b : ℝ) := by
    unfold sqAbs; push_cast; positivity
  have hsB : Real.sqrt ((sqAbs b : ℝ)) ^ 2 = (sqAbs b : ℝ) := Real.sq_sqrt hB
  have hsB0 : (0 : ℝ) ≤ Real.sqrt ((sqAbs b : ℝ)) := Real.sqrt_nonneg _
  have hM : Real.sqrt (4 * (atol : ℝ) ^ 2 * (rtol : ℝ) ^ 2 * (sqAbs b : ℝ))
      = 2 * (atol : ℝ) * (rtol : ℝ) * Real.sqrt ((sqAbs b : ℝ)) := by
    rw [show (4 * (atol : ℝ) ^ 2 * (rtol : ℝ) ^ 2 * (sqAbs b : ℝ))
        = (2 * (atol : ℝ) * (rtol : ℝ)) ^ 2 * (sqAbs b : ℝ) by ring]
    rw [Real.sqrt_mul (sq_nonneg _), Real.sqrt_sq (by positivity)]
  rw [absC_eq_sqrt_sqAbs, absC_eq_sqrt_sqAbs, Real.sqrt_le_iff]
  have hy : (0 : ℝ) ≤ (atol : ℝ) + (rtol : ℝ) * Real.sqrt ((sqAbs b : ℝ)) := by positivity
  unfold elemClose
  constructor
  · rintro (h | h)
    · have h' : (sqAbs (a - b) : ℝ) - ((atol : ℝ) ^ 2 + (rtol : ℝ) ^ 2 * (sqAbs b : ℝ)) ≤ 0 := by
        exact_mod_cast h
      exact ⟨hy, by nlinarith [mul_nonneg (mul_nonneg hAr hRr) hsB0]⟩
    · have h' : ((sqAbs (a - b) : ℝ) - ((atol : ℝ) ^ 2 + (rtol : ℝ) ^ 2 * (sqAbs b : ℝ))) ^ 2
          ≤ 4 * (atol : ℝ) ^ 2 * (rtol : ℝ) ^ 2 * (sqAbs b : ℝ) := by
        exact_mod_cast h
      refine ⟨hy, ?_⟩
      by_cases hL : (sqAbs (a - b) : ℝ) - ((atol : ℝ) ^ 2 + (rtol : ℝ) ^ 2 * (sqAbs b : ℝ)) ≤ 0
      · nlinarith [mul_nonneg (mul_nonneg hAr hRr) hsB0]
      · push_neg at hL
        have hstep : (sqAbs (a - b) : ℝ) - ((atol : ℝ) ^ 2 + (rtol : ℝ) ^ 2 * (sqAbs b : ℝ))
            ≤ Real.sqrt (4 * (atol : ℝ) ^ 2 * (rtol : ℝ) ^ 2 * (sqAbs b : ℝ)) :=
          (Real.le_sqrt hL.le (by positivity)).2 h'
        rw [hM] at hstep
        nlinarith [hstep, hsB]
  · rintro ⟨-, h⟩
    have hstep : (sqAbs (a - b) : ℝ) - ((atol : ℝ) ^ 2 + (rtol : ℝ) ^ 2 * (sqAbs b : ℝ))
        ≤ 2 * (atol : ℝ) * (rtol : ℝ) * Real.sqrt ((sqAbs b : ℝ)) := by
      nlinarith [h, hsB]
    by_cases hL : (sqAbs (a - b) : ℝ) - ((atol : ℝ) ^ 2 + (rtol : ℝ) ^ 2 * (sqAbs b : ℝ)) ≤ 0
    · left
      exact_mod_cast hL
    · right
      push_neg at hL
      have h2 : ((sqAbs (a - b) : ℝ) - ((atol : ℝ) ^ 2 + (rtol : ℝ) ^ 2 * (sqAbs b : ℝ))) ^ 2
          ≤ (2 * (atol : ℝ) * (rtol : ℝ) * Real.sqrt ((sqAbs b : ℝ))) ^ 2 :=
        pow_le_pow_left hL.le hstep 2
      have hexp : (2 * (atol : ℝ) * (rtol : ℝ) * Real.sqrt ((sqAbs b : ℝ))) ^ 2
          = 4 * (atol : ℝ) ^ 2 * (rtol : ℝ) ^ 2 * (sqAbs b : ℝ) := by
        rw [mul_pow, hsB]
        ring
      have h3 : ((sqAbs (a - b) : ℝ) - ((atol : ℝ) ^ 2 + (rtol : ℝ) ^ 2 * (sqAbs b : ℝ))) ^ 2
          ≤ 4 * (atol : ℝ) ^ 2 * (rtol : ℝ) ^ 2 * (sqAbs b : ℝ) := by
        rw [hexp] at h2
        exact h2
      exact_mod_cast h3

/-- The action catalog as the spec's §4.1 describes it: single-qubit actions
gate-major/qubit-minor, then (for N > 1) two-qubit actions gate-major over the
lexicographically ordered distinct pairs (both (a,b) and (b,a) present),
concatenated and numbered sequentially. -/
def actionCatalogSpec (q1_gates q2_gates : List GateT) (n : ℕ) :
    List (ℕ × (GateT × QTarget)) :=
  let singles := q1_gates.flatMap (fun g => (List.range n).map (fun q => (g, QTarget.one q)))
  let pairs := (List.range n).flatMap
    (fun a => ((List.range n).filter (fun b => a != b)).map (fun b => (a, b)))
  let twos := if 1 < n then
    q2_gates.flatMap (fun g => pairs.map (fun p => (g, QTarget.two p))) else []
  (singles ++ twos).enum

lemma pyProduct_map_snd {α β γ : Type} (xs : List α) (ys : List β) (h : β → γ) :
    (pyProduct xs ys).map (fun ab => (ab.1, h ab.2))
      = xs.flatMap (fun a => ys.map (fun b => (a, h b))) := by
  unfold pyProduct
  rw [List.map_flatMap]
  refine congrArg _ (funext fun a => ?_)
  rw [List.map_map]
  rfl

lemma filter_pyProduct_ne (xs ys : List ℕ) :
    (pyProduct xs ys).filter (fun x => x.1 != x.2)
      = xs.flatMap (fun a => ((ys.filter (fun b => a != b)).map (fun b => (a, b)))) := by
  unfold pyProduct
  induction xs with
  | nil => rfl
  | cons x xs ih =>
    rw [List.flatMap_cons, List.flatMap_cons, List.filter_append, ih, List.filter_map]
    rfl

lemma length_flatMap_const {α β : Type} (xs : List α) (f : α → List β) (c : ℕ)
    (h : ∀ a ∈ xs, (f a).length = c) : (xs.flatMap f).length = xs.length * c := by
  induction xs with
  | nil => simp
  | cons x xs ih =>
    rw [List.flatMap_cons, List.length_append, h x (by simp),
      ih (fun a ha => h a (by simp [ha])), List.length_cons]
    ring

lemma length_filter_ne_range' : ∀ (c s a : ℕ), s ≤ a → a < s + c →
    ((List.range' s c).filter (fun b => a != b)).length = c - 1 := by
  intro c
  induction c with
  | zero => intro s a h1 h2; omega
  | succ c ih =>
    intro s a h1 h2
    rw [List.range'_succ, List.filter_cons]
    by_cases has : a = s
    · subst has
      simp only [bne_self_eq_false, Bool.false_eq_true, if_neg, ite_false]
      rw [List.filter_eq_self.2 (fun b hb => by
        rw [List.mem_range'_1] at hb
        simp only [bne_iff_ne, ne_eq]
        omega)]
      simp [List.length_range']
    · have : (a != s) = true := by simp [bne_iff_ne]; omega
      rw [this]
      simp only [if_pos]
      rw [List.length_cons, ih (s + 1) a (by omega) (by omega)]
      omega

lemma length_filter_ne_range {n a : ℕ} (ha : a < n) :
    ((List.range n).filter (fun b => a != b)).length = n - 1 := by
  rw [List.range_eq_range']
  exact length_filter_ne_range' n 0 a (by omega) (by omega)

/-- `make_full_action_list` equals the spec-shaped catalog. -/
lemma make_full_action_list_eq_spec (q1 q2 : List GateT) (n : ℕ) :
    make_full_action_list q1 q2 n = actionCatalogSpec q1 q2 n := by
  unfold make_full_action_list actionCatalogSpec
  rw [← List.enum_eq_zip_range]
  by_cases hn : 1 < n
  · simp only [if_pos hn]
    rw [pyProduct_map_snd q1 (List.range n) QTarget.one,
      filter_pyProduct_ne (List.range n) (List.range n),
      pyProduct_map_snd q2 _ QTarget.two]
  · simp only [if_neg hn]
    rw [pyProduct_map_snd q1 (List.range n) QTarget.one, List.append_nil]

lemma actionCatalogSpec_length (q1 q2 : List GateT) (n : ℕ) :
    (actionCatalogSpec q1 q2 n).length = q1.length * n + q2.length * (n * (n - 1)) := by
  unfold actionCatalogSpec
  rw [List.enum_length, List.length_append]
  have hs : (q1.flatMap (fun g => (List.range n).map (fun q => (g, QTarget.one q)))).length
      = q1.length * n := by
    apply length_flatMap_const
    intro a _
    simp [List.length_range]
  have hp : ((List.range n).flatMap
      (fun a => ((List.range n).filter (fun b => a != b)).map (fun b => (a, b)))).length
      = n * (n - 1) := by
    have h0 := length_flatMap_const (List.range n)
      (fun a => ((List.range n).filter (fun b => a != b)).map (fun b => (a, b))) (n - 1)
      (fun a ha => by rw [List.length_map, length_filter_ne_range (List.mem_range.1 ha)])
    rwa [List.length_range] at h0
  by_cases hn : 1 < n
  · simp only [if_pos hn]
    rw [hs]
    congr 1
    apply length_flatMap_const
    intro g _
    rw [List.length_map, hp]
  · simp only [if_neg hn]
    rw [hs, List.length_nil]
    have h1 : n * (n - 1) = 0 := by
      have h2 : n = 0 ∨ n = 1 := by omega
      rcases h2 with h2 | h2 <;> simp [h2]
    rw [h1]
    simp

lemma two_n_pos {n : ℕ} (S : GameState n) : 0 < 2 * n := by
  have := S.hpos
  omega

lemma step_of_pyGet_none {n : ℕ} (S : GameState n) (i : ℤ)
    (h : pyGet S.full_action_list i = none) :
    GateSynthesis.step S i = .error .indexError := by
  simp only [GateSynthesis.step, h]

lemma step_of_rank2 {n : ℕ} (S : GameState n) (i : ℤ) (idx : ℕ) (G : GateT) (q : ℕ)
    (h : pyGet S.full_action_list i = some (idx, (G, QTarget.one q))) (h2 : G.1 = 2) :
    GateSynthesis.step S i = Except.ok
      ({ S with curr_unitary_op := apply_1q_gate (two_n_pos S) S.curr_unitary_op (asGate2 G) q },
        (get_observation (apply_1q_gate (two_n_pos S) S.curr_unitary_op (asGate2 G) q),
         (if npAllclose (apply_1q_gate (two_n_pos S) S.curr_unitary_op (asGate2 G) q)
            S.target_unitary_op S.tol then S.final_reward else 0),
         (decide (npAllclose (apply_1q_gate (two_n_pos S) S.curr_unitary_op (asGate2 G) q)
            S.target_unitary_op S.tol)
          || decide (S.nb_steps > S.max_steps)))) := by
  have h4 : ¬ G.1 = 4 := by omega
  simp only [GateSynthesis.step, GateSynthesis.have_winner, h, if_neg h4, if_pos h2]

lemma step_of_rank4 {n : ℕ} (S : GameState n) (i : ℤ) (idx : ℕ) (G : GateT) (p : ℕ × ℕ)
    (h : pyGet S.full_action_list i = some (idx, (G, QTarget.two p))) (h4 : G.1 = 4) :
    GateSynthesis.step S i = Except.ok
      ({ S with curr_unitary_op :=
          apply_2q_gate (two_n_pos S) S.curr_unitary_op (asGate4 G) p.1 p.2 },
        (get_observation (apply_2q_gate (two_n_pos S) S.curr_unitary_op (asGate4 G) p.1 p.2),
         (if npAllclose (apply_2q_gate (two_n_pos S) S.curr_unitary_op (asGate4 G) p.1 p.2)
            S.target_unitary_op S.tol then S.final_reward else 0),
         (decide (npAllclose (apply_2q_gate (two_n_pos S) S.curr_unitary_op (asGate4 G) p.1 p.2)
            S.target_unitary_op S.tol)
          || decide (S.nb_steps > S.max_steps)))) := by
  simp only [GateSynthesis.step, GateSynthesis.have_winner, h, if_pos h4]

lemma step_of_rank_other {n : ℕ} (S : GameState n) (i : ℤ) (idx : ℕ) (G : GateT) (qb : QTarget)
    (h : pyGet S.full_action_list i = some (idx, (G, qb)))
    (h4 : ¬ G.1 = 4) (h2 : ¬ G.1 = 2) :
    GateSynthesis.step S i = .error .unsupportedGateShape := by
  cases qb with
  | one q => simp only [GateSynthesis.step, h, if_neg h4, if_neg h2]
  | two p => simp only [GateSynthesis.step, h, if_neg h4, if_neg h2]

lemma step_of_mismatch41 {n : ℕ} (S : GameState n) (i : ℤ) (idx : ℕ) (G : GateT) (q : ℕ)
    (h : pyGet S.full_action_list i = some (idx, (G, QTarget.one q))) (h4 : G.1 = 4) :
    GateSynthesis.step S i = .error .typeErr := by
  simp only [GateSynthesis.step, h, if_pos h4]

lemma step_of_mismatch22 {n : ℕ} (S : GameState n) (i : ℤ) (idx : ℕ) (G : GateT) (p : ℕ × ℕ)
    (h : pyGet S.full_action_list i = some (idx, (G, QTarget.two p))) (h2 : G.1 = 2) :
    GateSynthesis.step S i = .error .typeErr := by
  have h4 : ¬ G.1 = 4 := by omega
  simp only [GateSynthesis.step, h, if_neg h4, if_pos h2]

/-- A successful `step` only replaces the current operator. -/
lemma step_ok_shape {n : ℕ} (S : GameState n) (i : ℤ)
    {res : GameState n × (Obs n × ℚ × Bool)}
    (h : GateSynthesis.step S i = .ok res) :
    ∃ T', res.1 = { S with curr_unitary_op := T' } := by
  rcases hpg : pyGet S.full_action_list i with _ | a
  · rw [step_of_pyGet_none S i hpg] at h
    exact absurd h (by simp)
  · obtain ⟨idx, G, qb⟩ := a
    cases qb with
    | one q =>
      by_cases h4 : G.1 = 4
      · rw [step_of_mismatch41 S i idx G q hpg h4] at h
        exact absurd h (by simp)
      · by_cases h2 : G.1 = 2
        · rw [step_of_rank2 S i idx G q hpg h2] at h
          cases h
          exact ⟨_, rfl⟩
        · rw [step_of_rank_other S i idx G _ hpg h4 h2] at h
          exact absurd h (by simp)
    | two p =>
      by_cases h4 : G.1 = 4
      · rw [step_of_rank4 S i idx G p hpg h4] at h
        cases h
        exact ⟨_, rfl⟩
      · by_cases h2 : G.1 = 2
        · rw [step_of_mismatch22 S i idx G p hpg h2] at h
          exact absurd h (by simp)
        · rw [step_of_rank_other S i idx G _ hpg h4 h2] at h
          exact absurd h (by simp)

lemma runOps_preserves {n : ℕ} (l : List GameOp) :
    ∀ (S S' : GameState n), runOps S l = .ok S' →
      S'.init_unitary_op = S.init_unitary_op
        ∧ S'.target_unitary_op = S.target_unitary_op := by
  induction l with
  | nil =>
    intro S S' h
    simp only [runOps] at h
    cases h
    exact ⟨rfl, rfl⟩
  | cons op rest ih =>
    intro S S' h
    cases op with
    | reset =>
      simp only [runOps] at h
      exact ih (GateSynthesis.reset S).1 S' h
    | step i =>
      rcases hst : GateSynthesis.step S i with e | res
      · simp only [runOps, hst] at h
        exact absurd h (by simp)
      · simp only [runOps, hst] at h
        obtain ⟨T', hT⟩ := step_ok_shape S i hst
        have hpre := ih res.1 S' h
        rw [hT] at hpre
        exact hpre

lemma runOps_history {n : ℕ} (l : List GameOp) :
    ∀ (S S' : GameState n), S.distance_history = [] → runOps S l = .ok S' →
      S'.distance_history = [] := by
  induction l with
  | nil =>
    intro S S' h0 h
    simp only [runOps] at h
    cases h
    exact h0
  | cons op rest ih =>
    intro S S' h0 h
    cases op with
    | reset =>
      simp only [runOps] at h
      exact ih _ _ rfl h
    | step i =>
      rcases hst : GateSynthesis.step S i with e | res
      · simp only [runOps, hst] at h
        exact absurd h (by simp)
      · simp only [runOps, hst] at h
        obtain ⟨T', hT⟩ := step_ok_shape S i hst
        refine ih _ _ ?_ h
        rw [hT]
        exact h0

/-- Modelled from the spec: the identity single-qubit gate (the external
constant `I` from the gate module, which is not under `src/`). -/
def gateI2 : GateT := ⟨2, fun i => if i 0 = i 1 then ((1 : ℚ), (0 : ℚ)) else (0, 0)⟩

/-- A target operator far from anything the identity-gate game reaches. -/
def farTarget : Tensor (2 * 1) := fun _ => ((1000 : ℚ), (0 : ℚ))

/-- The concrete one-qubit episode used as failing input: identity gate only,
`max_steps = 0`, reward 100, `tol = 1e-3`. -/
def S0identity : GameState 1 :=
  GateSynthesis.init (by omega) [gateI2] [] 100 0 (idOp 1) farTarget (1 / 1000)

/-- All-ones rank-4 operator (test data for the two-qubit applier). -/
def onesT4 : Tensor 4 := fun _ => ((1 : ℚ), 0)

/-- A rank-4 gate whose value records its four indices, distinguishing every
axis role (test data). -/
def gInj : Fin 2 → Fin 2 → Fin 2 → Fin 2 → CQ := fun a b c d =>
  (((a.val * 8 + b.val * 4 + c.val * 2 + d.val : ℕ) : ℚ), 0)

/-- The two-qubit application as claim C2 words it: contract the operator
axes `2a`, `2b` against the gate's *third and fourth* axes (in-A, in-B at
1-based positions 3 and 4), the remaining first and second gate axes being
appended in order and reinserted with the same smaller/bigger tie-break as
the source. -/
def tensordot2_claimC2 {r : ℕ} (T : Tensor r) (g : Fin 2 → Fin 2 → Fin 2 → Fin 2 → CQ)
    (ka kb : Fin r) : Tensor r :=
  fun i => ∑ s : Fin 2, ∑ t : Fin 2,
    cmul (T (fun m => if m = ka then s else if m = kb then t else
      i ⟨m.val - (if ka.val < m.val then 1 else 0) - (if kb.val < m.val then 1 else 0),
        Nat.lt_of_le_of_lt (Nat.le_trans (Nat.sub_le _ _) (Nat.sub_le _ _)) m.isLt⟩))
      (g (i ⟨r - 2, by have := ka.isLt; omega⟩)
         (i ⟨r - 1, by have := ka.isLt; omega⟩) s t)

/-- `apply_2q_gate` as claim C2 describes it (same reinsertion, but the
contraction against gate axes 3 and 4 instead of the source's 2 and 4,
1-based). -/
def apply_2q_gate_claimC2 {r : ℕ} (hr : 0 < r) (T : Tensor r)
    (g : Fin 2 → Fin 2 → Fin 2 → Fin 2 → CQ) (qbitA qbitB : ℕ) : Tensor r :=
  let idx_a := qbit_num_to_tensor_index qbitA
  let idx_b := qbit_num_to_tensor_index qbitB
  let lst := List.range r
  let tensored_res := tensordot2_claimC2 T g ⟨idx_a % r, Nat.mod_lt _ hr⟩ ⟨idx_b % r, Nat.mod_lt _ hr⟩
  let smaller := if idx_a < idx_b then idx_a else idx_b
  let bigger := if idx_a < idx_b then idx_b else idx_a
  let first := if idx_a < idx_b then r - 2 else r - 1
  let second := if idx_a < idx_b then r - 1 else r - 2
  transposeL (((lst.insertIdx smaller first).insertIdx bigger second).dropLast.dropLast)
    tensored_res

/-- The purely relative elementwise closeness that claim C4 describes:
every element agrees within `tol × |target element|`, with no absolute
slack. -/
def specRelClose {r : ℕ} (tol : ℚ) (a b : Tensor r) : Prop :=
  ∀ i, absC (a i - b i) ≤ (tol : ℝ) * absC (b i)

lemma absC_rat (x : ℚ) (hx : 0 ≤ x) : absC (x, (0 : ℚ)) = (x : ℝ) := by
  unfold absC
  simp only []
  rw [show (((0 : ℚ) : ℝ)) ^ 2 = 0 by norm_num, add_zero,
    Real.sqrt_sq (by exact_mod_cast hx)]

/-- Current operator `1e-9` in every entry (test data for C4). -/
def tinycurr : Tensor (2 * 1) := fun _ => ((1/1000000000 : ℚ), 0)

/-- The all-zero target operator (test data for C4). -/
def zerotgt : Tensor (2 * 1) := fun _ => ((0 : ℚ), 0)

/-- Episode whose current operator is `1e-9` away from an all-zero target,
with `tol = 1e-3` (test data for C4). -/
def S0atol : GameState 1 :=
  GateSynthesis.init (by omega) [gateI2] [] 100 1000 tinycurr zerotgt (1/1000)

/-- A target with every entry of modulus one, and a current operator `1e-4`
away from it in every entry (test data for C4's boundary cases). -/
def oneTgt : Tensor (2 * 1) := fun _ => ((1 : ℚ), 0)

/-- `oneTgt` perturbed by `1e-4` in every entry. -/
def oneCurr : Tensor (2 * 1) := fun _ => ((1 + 1/10000 : ℚ), 0)

/-- Episode with unit-modulus target entries and a `1e-4` perturbation
(test data for C4's acceptance boundary). -/
def S0unit : GameState 1 :=
  GateSynthesis.init (by omega) [gateI2] [] 100 1000 oneCurr oneTgt (1/1000)

/-- C1: the claim says `step` increments the step counter by one, and that
once the counter exceeds `max_steps` the episode ends with `done = True` and
reward 0 (in particular after identity-only play).  The source never
increments `nb_steps`, so on the concrete identity-gate episode with
`max_steps = 0` a step leaves `nb_steps = 0` and returns reward 0 with
`done = false` — where the claim requires `done = True` — and `have_winner`
is false throughout; the `nb_steps > max_steps` branch is unreachable. -/
theorem claim_C1_step_never_increments :
    (GateSynthesis.step S0identity 0).toOption.map
        (fun x => (x.1.nb_steps, x.2.2.1, x.2.2.2)) = some (0, 0, false)
      ∧ ¬ GateSynthesis.have_winner S0identity
      ∧ S0identity.max_steps = 0 ∧ S0identity.nb_steps = 0 := by
  exact ⟨by decide, by decide, rfl, rfl⟩

/-- C2 (counterexample): contracting the gate's axes 3 and 4 (1-based), as
the claim states, differs from what `apply_2q_gate` computes, already on a
rank-4 operator of ones and an index-recording gate on qubits (0, 1). -/
theorem claim_C2_counterexample :
    apply_2q_gate (r := 4) (by omega) onesT4 gInj 0 1
      ≠ apply_2q_gate_claimC2 (by omega) onesT4 gInj 0 1 := by
  decide

/-- C2 (amended): `apply_2q_gate` contracts operator axes `2a` and `2b`
against the gate's *second and fourth* axes (1-based positions 2 and 4), and
reinserts the remaining first and third gate axes at positions `2a` and `2b`
respectively — equivalently, the output axis associated with the smaller of
`2a`/`2b` lands at the smaller position — restoring rank `2N`:
pointwise, the new operator at `i` is
`∑ s t, T(i[2a := s][2b := t]) * g(i 2a, s, i 2b, t)`. -/
theorem claim_C2_amended {r : ℕ} (hr : 0 < r) (T : Tensor r)
    (g : Fin 2 → Fin 2 → Fin 2 → Fin 2 → CQ) (qbitA qbitB : ℕ)
    (ha : 2 * qbitA < r) (hb : 2 * qbitB < r) (hne : qbitA ≠ qbitB) :
    apply_2q_gate hr T g qbitA qbitB = fun i => ∑ s : Fin 2, ∑ t : Fin 2,
      cmul (T (fun m => if m.val = 2 * qbitA then s else if m.val = 2 * qbitB then t else i m))
        (g (i ⟨2 * qbitA, ha⟩) s (i ⟨2 * qbitB, hb⟩) t) :=
  apply_2q_gate_eq hr T g qbitA qbitB ha hb hne

/-- Witness for C2's amended theorem at `r = 4`, qubits (0, 1). -/
theorem claim_C2_amended_witness :
    apply_2q_gate (r := 4) (by omega) onesT4 gInj 0 1 = fun i =>
      ∑ s : Fin 2, ∑ t : Fin 2,
        cmul (onesT4 (fun m => if m.val = 2 * 0 then s else if m.val = 2 * 1 then t else i m))
          (gInj (i ⟨2 * 0, by omega⟩) s (i ⟨2 * 1, by omega⟩) t) :=
  claim_C2_amended (by omega) onesT4 gInj 0 1 (by omega) (by omega) (by omega)

/-- C3 (counterexample): the claim says every action index outside
`[0, catalog size)` makes `step` fail with `InvalidActionIndex`; but Python
list indexing accepts negative indices, and on the concrete one-action
episode `step(-1)` succeeds (it resolves the last action). -/
theorem claim_C3_counterexample :
    (GateSynthesis.step S0identity (-1)).toOption.isSome = true
      ∧ ((-1 : ℤ) < 0) ∧ S0identity.full_action_list.length = 1 := by
  exact ⟨by decide, by decide, by decide⟩

/-- C3 (amended): `step` fails with `InvalidActionIndex` (Python
`IndexError`), with no mutation, exactly for indices `≥ size` or `< -size`;
a negative index `i` with `-size ≤ i < 0` resolves Python-style to the entry
at `size + i`, so `step i` behaves as `step (i + size)`. -/
theorem claim_C3_amended :
    (∀ (n : ℕ) (S : GameState n) (i : ℤ),
      ((S.full_action_list.length : ℤ) ≤ i ∨ i + (S.full_action_list.length : ℤ) < 0) →
      GateSynthesis.step S i = .error .indexError)
    ∧ (∀ (n : ℕ) (S : GameState n) (i : ℤ),
      0 ≤ i → i < (S.full_action_list.length : ℤ) →
      GateSynthesis.step S i ≠ .error .indexError)
    ∧ (∀ (n : ℕ) (S : GameState n) (i : ℤ),
      0 ≤ i + (S.full_action_list.length : ℤ) → i < 0 →
      GateSynthesis.step S i = GateSynthesis.step S (i + S.full_action_list.length)) := by
  refine ⟨?_, ?_, ?_⟩
  · intro n S i h
    apply step_of_pyGet_none
    unfold pyGet
    rcases h with h | h
    · rw [if_pos (by omega)]
      rw [List.get?_eq_none]
      omega
    · rw [if_neg (by omega)]
      rw [if_neg (by omega)]
  · intro n S i h0 hlen hcontra
    have hlt : i.toNat < S.full_action_list.length := by omega
    have hpy : pyGet S.full_action_list i
        = some (S.full_action_list.get ⟨i.toNat, hlt⟩) := by
      unfold pyGet
      rw [if_pos h0]
      exact List.get?_eq_get hlt
    rcases hres : S.full_action_list.get ⟨i.toNat, hlt⟩ with ⟨jdx, H, tq⟩
    rw [hres] at hpy
    cases tq with
    | one q =>
      by_cases h4 : H.1 = 4
      · rw [step_of_mismatch41 S i jdx H q hpy h4] at hcontra
        simp at hcontra
      · by_cases h2 : H.1 = 2
        · rw [step_of_rank2 S i jdx H q hpy h2] at hcontra
          simp at hcontra
        · rw [step_of_rank_other S i jdx H _ hpy h4 h2] at hcontra
          simp at hcontra
    | two p =>
      by_cases h4 : H.1 = 4
      · rw [step_of_rank4 S i jdx H p hpy h4] at hcontra
        simp at hcontra
      · by_cases h2 : H.1 = 2
        · rw [step_of_mismatch22 S i jdx H p hpy h2] at hcontra
          simp at hcontra
        · rw [step_of_rank_other S i jdx H _ hpy h4 h2] at hcontra
          simp at hcontra
  · intro n S i h1 h2
    have hpy : pyGet S.full_action_list i
        = pyGet S.full_action_list (i + S.full_action_list.length) := by
      unfold pyGet
      rw [if_neg (by omega), if_pos (by omega), if_pos (by omega)]
      congr 1
      omega
    unfold GateSynthesis.step
    rw [hpy]

/-- Witness for C3's amended theorem: index 5 on the one-action episode is
rejected, index 0 is not, and index -1 behaves as index 0. -/
theorem claim_C3_amended_witness :
    GateSynthesis.step S0identity 5 = .error .indexError
      ∧ GateSynthesis.step S0identity 0 ≠ .error .indexError
      ∧ GateSynthesis.step S0identity (-1)
          = GateSynthesis.step S0identity (-1 + S0identity.full_action_list.length) :=
  ⟨claim_C3_amended.1 1 S0identity 5 (Or.inl (by decide)),
   claim_C3_amended.2.1 1 S0identity 0 (by decide) (by decide),
   claim_C3_amended.2.2 1 S0identity (-1) (by decide) (by decide)⟩

/-- C4 (counterexample): the claim says `have_winner` holds iff every element
agrees within `tol × |target element|`.  On the episode whose current
operator is `1e-9` away from an all-zero target with `tol = 1e-3`,
`have_winner` holds (numpy's default `atol = 1e-8` absorbs the difference)
while the purely relative criterion fails (`1e-9 > 1e-3 · 0`). -/
theorem claim_C4_counterexample :
    GateSynthesis.have_winner S0atol
      ∧ ¬ specRelClose S0atol.tol S0atol.curr_unitary_op S0atol.target_unitary_op := by
  constructor
  · decide
  · intro h
    have h0 := h (fun _ => (0 : Fin 2))
    have hc : S0atol.curr_unitary_op (fun _ => (0 : Fin 2))
        - S0atol.target_unitary_op (fun _ => (0 : Fin 2))
        = (((1 : ℚ)/1000000000), (0 : ℚ)) := by
      show tinycurr (fun _ => (0 : Fin 2)) - zerotgt (fun _ => (0 : Fin 2))
        = (((1 : ℚ)/1000000000), (0 : ℚ))
      unfold tinycurr zerotgt
      norm_num [Prod.ext_iff]
    have ht : S0atol.target_unitary_op (fun _ => (0 : Fin 2)) = ((0 : ℚ), (0 : ℚ)) := rfl
    rw [hc, ht, absC_rat _ (by norm_num), absC_rat _ (by norm_num)] at h0
    norm_num at h0

/-- C4 (amended): `have_winner` holds iff every element satisfies numpy's
`allclose` test `|curr − target| ≤ atol + tol · |target|` with the default
absolute tolerance `atol = 1e-8`; consequently, with `tol = 1e-3` and a
target all of whose entries have modulus 1, an operator differing by at most
`1e-4` in every entry is accepted, and one differing by at least `1e-2` in
some entry is rejected. -/
theorem claim_C4_amended :
    (∀ (n : ℕ) (S : GameState n), 0 ≤ S.tol →
      (GateSynthesis.have_winner S ↔
        ∀ i, absC (S.curr_unitary_op i - S.target_unitary_op i)
          ≤ (npDefaultAtol : ℝ) + (S.tol : ℝ) * absC (S.target_unitary_op i)))
    ∧ (∀ (n : ℕ) (S : GameState n), S.tol = 1/1000 →
        (∀ i, absC (S.target_unitary_op i) = 1) →
        ((∀ i, absC (S.curr_unitary_op i - S.target_unitary_op i) ≤ 1/10000) →
          GateSynthesis.have_winner S)
        ∧ ((∃ i, (1/100 : ℝ) ≤ absC (S.curr_unitary_op i - S.target_unitary_op i)) →
          ¬ GateSynthesis.have_winner S)) := by
  have hmain : ∀ (n : ℕ) (S : GameState n), 0 ≤ S.tol →
      (GateSynthesis.have_winner S ↔
        ∀ i, absC (S.curr_unitary_op i - S.target_unitary_op i)
          ≤ (npDefaultAtol : ℝ) + (S.tol : ℝ) * absC (S.target_unitary_op i)) := by
    intro n S htol
    unfold GateSynthesis.have_winner npAllclose
    refine forall_congr' (fun i => ?_)
    exact elemClose_iff_real (by norm_num [npDefaultAtol]) htol _ _
  refine ⟨hmain, ?_⟩
  intro n S htol habs
  constructor
  · intro hclose
    rw [hmain n S (by rw [htol]; norm_num)]
    intro i
    have h1 := hclose i
    have h2 := habs i
    rw [h2, htol]
    have : (npDefaultAtol : ℝ) = 1/100000000 := by norm_num [npDefaultAtol]
    rw [this]
    push_cast
    linarith
  · rintro ⟨i, hi⟩ hw
    rw [hmain n S (by rw [htol]; norm_num)] at hw
    have h1 := hw i
    rw [habs i, htol] at h1
    have : (npDefaultAtol : ℝ) = 1/100000000 := by norm_num [npDefaultAtol]
    rw [this] at h1
    push_cast at h1
    linarith

/-- Witness for C4's amended theorem on concrete episodes (`S0atol` for the
iff; `S0unit` for the unit-modulus boundary cases). -/
theorem claim_C4_amended_witness :
    (GateSynthesis.have_winner S0atol ↔
      ∀ i, absC (S0atol.curr_unitary_op i - S0atol.target_unitary_op i)
        ≤ (npDefaultAtol : ℝ) + (S0atol.tol : ℝ) * absC (S0atol.target_unitary_op i))
    ∧ GateSynthesis.have_winner S0unit := by
  constructor
  · exact claim_C4_amended.1 1 S0atol (by decide)
  · refine (claim_C4_amended.2 1 S0unit (by decide) (fun i => ?_)).1 (fun i => ?_)
    · show absC ((1 : ℚ), (0 : ℚ)) = 1
      rw [absC_rat _ (by norm_num)]
      norm_num
    · have hc : S0unit.curr_unitary_op i - S0unit.target_unitary_op i
          = (((1 : ℚ)/10000), (0 : ℚ)) := by
        show oneCurr i - oneTgt i = (((1 : ℚ)/10000), (0 : ℚ))
        unfold oneCurr oneTgt
        norm_num [Prod.ext_iff]
      rw [hc, absC_rat _ (by norm_num)]
      norm_num

/-- C5 (counterexample): the claim says `get_observation` groups all row
axes before all column axes, so encoding the N-qubit identity yields the
`2^N × 2^N` identity as real part.  At `N = 3` the interleaving axes tuple
`(0, 3, 1, 4, 2, 5)` is not that grouping, and the encoded identity has a 1
in the off-diagonal entry (row bits (0,0,0), column bits (1,0,1)). -/
theorem claim_C5_counterexample :
    ¬ (∀ (rb cb : Fin 3 → Fin 2),
        get_observation (idOp 3) 0 rb cb = (if rb = cb then 1 else 0)) := by
  intro h
  exact absurd (h ![0, 0, 0] ![1, 0, 1]) (by decide)

/-- C5 (amended): `get_observation` permutes axes by the interleaving tuple
`(0, n, 1, n+1, …, n-1, 2n-1)` — matrix entry `(r, c)` reads operator axis
`m` from the bit `obs_source_index r c m` — then reshapes to `2^N × 2^N` and
stacks real part (layer 0) and imaginary part (layer 1).  This equals the
row-axes-first grouping only for `N ≤ 2`; for `N ≤ 2` the encoded identity
operator is the identity matrix with zero imaginary part. -/
theorem claim_C5_amended :
    (∀ (n : ℕ) (T : Tensor (2 * n)) (layer : Fin 2) (rb cb : Fin n → Fin 2),
      get_observation T layer rb cb =
        if layer = 0 then (T (obs_source_index rb cb)).1 else (T (obs_source_index rb cb)).2)
    ∧ (∀ (rb cb : Fin 2 → Fin 2),
        get_observation (idOp 2) 0 rb cb = (if rb = cb then 1 else 0)
          ∧ get_observation (idOp 2) 1 rb cb = 0)
    ∧ (∀ (rb cb : Fin 1 → Fin 2),
        get_observation (idOp 1) 0 rb cb = (if rb = cb then 1 else 0)
          ∧ get_observation (idOp 1) 1 rb cb = 0) := by
  refine ⟨fun n T layer rb cb => get_observation_eq T layer rb cb, by decide, by decide⟩

/-- C6: for every qubit count N ≥ 1 and gate sets, the action catalog equals
the spec-shaped construction (single-qubit actions first, gate-major and
qubit-minor; then, when N > 1, two-qubit actions gate-major over the ordered
distinct pairs with both (a,b) and (b,a) present), has exactly
`|G1|·N + |G2|·N·(N-1)` entries, and every entry's index equals its
position. -/
theorem claim_C6_catalog (q1 q2 : List GateT) (n : ℕ) (hn : 1 ≤ n) :
    make_full_action_list q1 q2 n = actionCatalogSpec q1 q2 n
    ∧ (make_full_action_list q1 q2 n).length = q1.length * n + q2.length * (n * (n - 1))
    ∧ ∀ (k : ℕ) (hk : k < (make_full_action_list q1 q2 n).length),
        ((make_full_action_list q1 q2 n).get ⟨k, hk⟩).1 = k := by
  refine ⟨make_full_action_list_eq_spec q1 q2 n, ?_, ?_⟩
  · rw [make_full_action_list_eq_spec q1 q2 n]
    exact actionCatalogSpec_length q1 q2 n
  · intro k hk
    have hk2 : k < (actionCatalogSpec q1 q2 n).length := by
      rwa [make_full_action_list_eq_spec q1 q2 n] at hk
    rw [List.get_eq_getElem]
    simp only [make_full_action_list_eq_spec q1 q2 n]
    unfold actionCatalogSpec
    rw [List.getElem_enum]

/-- Witness for C6 at the one-qubit identity-gate catalog. -/
theorem claim_C6_catalog_witness :
    make_full_action_list [gateI2] [] 1 = actionCatalogSpec [gateI2] [] 1
      ∧ (make_full_action_list [gateI2] [] 1).length
          = [gateI2].length * 1 + ([] : List GateT).length * (1 * (1 - 1))
      ∧ ∀ (k : ℕ) (hk : k < (make_full_action_list [gateI2] [] 1).length),
          ((make_full_action_list [gateI2] [] 1).get ⟨k, hk⟩).1 = k :=
  claim_C6_catalog [gateI2] [] 1 (by decide)

/-- C7: `apply_1q_gate` contracts the operator's axis `2·qbit` against the
gate's second (column/input) axis and reinserts the output axis at position
`2·qbit`, leaving the other axes in order and restoring rank: pointwise the
new operator at `i` is `∑ s, T(i[2·qbit := s]) * g(i (2·qbit), s)`, i.e. the
gate applied to the contracted axis. -/
theorem claim_C7_apply_1q {r : ℕ} (hr : 0 < r) (T : Tensor r)
    (g : Fin 2 → Fin 2 → CQ) (qbit : ℕ) (hq : 2 * qbit < r) :
    apply_1q_gate hr T g qbit = fun i => ∑ s : Fin 2,
      cmul (T (fun m => if m.val = 2 * qbit then s else i m)) (g (i ⟨2 * qbit, hq⟩) s) :=
  apply_1q_gate_eq hr T g qbit hq

/-- Witness for C7 on the one-qubit identity operator with the X gate. -/
theorem claim_C7_apply_1q_witness :
    apply_1q_gate (r := 2) (by omega) (idOp 1) (fun a b => if a = b then (0, 1) else (1, 0)) 0
      = fun i => ∑ s : Fin 2,
        cmul ((idOp 1) (fun m => if m.val = 2 * 0 then s else i m))
          ((fun a b => if a = b then ((0 : ℚ), (1 : ℚ)) else (1, 0)) (i ⟨2 * 0, by omega⟩) s) :=
  claim_C7_apply_1q (by omega) (idOp 1) _ 0 (by omega)

/-- C8: when `step` resolves an action `(G, qb)`, it fails with
`UnsupportedGateShape` exactly when `G`'s rank is neither 2 nor 4; a rank-2
gate on a single-qubit target is dispatched to `apply_1q_gate` and a rank-4
gate on a pair to `apply_2q_gate`, with no other validation of the gate
tensor (the dispatch succeeds for arbitrary gate values). -/
theorem claim_C8_dispatch (n : ℕ) (S : GameState n) (i : ℤ) (idx : ℕ)
    (G : GateT) (qb : QTarget)
    (h : pyGet S.full_action_list i = some (idx, (G, qb))) :
    ((GateSynthesis.step S i = .error .unsupportedGateShape) ↔ (G.1 ≠ 2 ∧ G.1 ≠ 4))
    ∧ (∀ q, qb = QTarget.one q → G.1 = 2 →
        ∃ rest, GateSynthesis.step S i = .ok
          ({ S with curr_unitary_op :=
              apply_1q_gate (two_n_pos S) S.curr_unitary_op (asGate2 G) q }, rest))
    ∧ (∀ p, qb = QTarget.two p → G.1 = 4 →
        ∃ rest, GateSynthesis.step S i = .ok
          ({ S with curr_unitary_op :=
              apply_2q_gate (two_n_pos S) S.curr_unitary_op (asGate4 G) p.1 p.2 }, rest)) := by
  refine ⟨⟨?_, ?_⟩, ?_, ?_⟩
  · intro hstep
    by_cases h4 : G.1 = 4
    · cases qb with
      | one q => rw [step_of_mismatch41 S i idx G q h h4] at hstep; simp at hstep
      | two p => rw [step_of_rank4 S i idx G p h h4] at hstep; simp at hstep
    · by_cases h2 : G.1 = 2
      · cases qb with
        | one q => rw [step_of_rank2 S i idx G q h h2] at hstep; simp at hstep
        | two p => rw [step_of_mismatch22 S i idx G p h h2] at hstep; simp at hstep
      · exact ⟨h2, h4⟩
  · rintro ⟨h2, h4⟩
    exact step_of_rank_other S i idx G qb h h4 h2
  · rintro q rfl h2
    rw [step_of_rank2 S i idx G q h h2]
    exact ⟨_, rfl⟩
  · rintro p rfl h4
    rw [step_of_rank4 S i idx G p h h4]
    exact ⟨_, rfl⟩

/-- Witness for C8 on the one-action identity-gate episode. -/
theorem claim_C8_dispatch_witness :
    ((GateSynthesis.step S0identity 0 = .error .unsupportedGateShape)
        ↔ (gateI2.1 ≠ 2 ∧ gateI2.1 ≠ 4))
    ∧ (∀ q, QTarget.one 0 = QTarget.one q → gateI2.1 = 2 →
        ∃ rest, GateSynthesis.step S0identity 0 = .ok
          ({ S0identity with curr_unitary_op := apply_1q_gate (two_n_pos S0identity) S0identity.curr_unitary_op (asGate2 gateI2) q }, rest))
    ∧ (∀ p, QTarget.one 0 = QTarget.two p → gateI2.1 = 4 →
        ∃ rest, GateSynthesis.step S0identity 0 = .ok
          ({ S0identity with curr_unitary_op := apply_2q_gate (two_n_pos S0identity) S0identity.curr_unitary_op (asGate4 gateI2) p.1 p.2 }, rest)) :=
  claim_C8_dispatch 1 S0identity 0 0 gateI2 (QTarget.one 0) (by decide)

/-- C9: any sequence of successful `step` calls leaves the initial and
target operators unchanged, and `reset` afterwards restores the current
operator to the (original) initial operator, zeroes the step counter, clears
the distance history, and returns the encoded observation of the initial
operator. -/
theorem claim_C9_frame (n : ℕ) (S : GameState n) (l : List ℤ) (S' : GameState n)
    (h : runOps S (l.map GameOp.step) = .ok S') :
    S'.init_unitary_op = S.init_unitary_op
    ∧ S'.target_unitary_op = S.target_unitary_op
    ∧ (GateSynthesis.reset S').1.curr_unitary_op = S.init_unitary_op
    ∧ (GateSynthesis.reset S').1.nb_steps = 0
    ∧ (GateSynthesis.reset S').1.distance_history = []
    ∧ (GateSynthesis.reset S').2 = get_observation S.init_unitary_op := by
  obtain ⟨h1, h2⟩ := runOps_preserves (l.map GameOp.step) S S' h
  refine ⟨h1, h2, ?_, rfl, rfl, ?_⟩
  · show S'.init_unitary_op = S.init_unitary_op
    exact h1
  · show get_observation S'.init_unitary_op = get_observation S.init_unitary_op
    rw [h1]

/-- Witness for C9 on the empty step sequence from the concrete episode. -/
theorem claim_C9_frame_witness :
    S0identity.init_unitary_op = S0identity.init_unitary_op
    ∧ S0identity.target_unitary_op = S0identity.target_unitary_op
    ∧ (GateSynthesis.reset S0identity).1.curr_unitary_op = S0identity.init_unitary_op
    ∧ (GateSynthesis.reset S0identity).1.nb_steps = 0
    ∧ (GateSynthesis.reset S0identity).1.distance_history = []
    ∧ (GateSynthesis.reset S0identity).2 = get_observation S0identity.init_unitary_op :=
  claim_C9_frame 1 S0identity [] S0identity rfl

/-- C10: starting from a freshly constructed instance, no sequence of
`reset` and successful `step` calls ever puts an entry into
`distance_history` — it stays empty. -/
theorem claim_C10_history (n : ℕ) (hpos : 0 < n) (q1 q2 : List GateT) (rwd : ℚ)
    (ms : ℕ) (iu tu : Tensor (2 * n)) (tol : ℚ) (l : List GameOp) (S' : GameState n)
    (h : runOps (GateSynthesis.init hpos q1 q2 rwd ms iu tu tol) l = .ok S') :
    S'.distance_history = [] :=
  runOps_history l (GateSynthesis.init hpos q1 q2 rwd ms iu tu tol) S' rfl h

/-- Witness for C10 on a concrete construction and the empty call list. -/
theorem claim_C10_history_witness :
    S0identity.distance_history = [] :=
  claim_C10_history 1 (by omega) [gateI2] [] 100 0 (idOp 1) farTarget (1/1000) [] S0identity rfl
